import Mathlib

/-!
Verification of the crossword CSP solver in generate.py.

The solver (class CrosswordCreator) is embedded shallowly: Python sets of
words become Lean lists (with uniqueness handled by hypotheses where it
matters), the mutable domain dictionary becomes a function from variables to
word lists updated with Function.update, and the mutable assignment
dictionary becomes an association list threaded explicitly through the
backtracking search, so that the in-place mutation behaviour of the Python
code stays observable. The puzzle model (crossword.py) is an external
collaborator that is not among the solver sources; its data is modelled from
the spec.
-/

set_option maxHeartbeats 1600000
set_option linter.unusedVariables false

namespace CrosswordGen

/-- Slot direction in the grid: a slot runs either across or down. -/
inductive Direction where
  | across
  | down
deriving DecidableEq

/-- A crossword variable (slot). Modelled from the spec: a Variable identifies
a slot by start cell (i, j), direction and length, and is compared by that
data. -/
structure Variable where
  i : Nat
  j : Nat
  dir : Direction
  length : Nat
deriving DecidableEq

/-- A candidate word, as its list of characters. Character access w[k] in the
Python code is embedded as List.getD with a default character; every access
the solver performs on a well-formed instance is in range. -/
abbrev Word := List Char

/-- The domain store: the Python dict mapping each variable to its current
candidate word set, as a function to candidate word lists. Only the values at
the crossword's variables are ever consulted. -/
abbrev Domains := Variable → List Word

/-- A (partial) assignment: the Python dict from variables to words, as an
association list in insertion order. -/
abbrev Assign := List (Variable × Word)

/-- Modelled from the spec: the puzzle model (crossword.py, not among the
solver sources) supplies the fixed set of variables, the shared initial word
pool, and the precomputed overlap table which, for pairs of distinct slots
sharing a cell, gives the character index in each word that must agree;
pairs with no shared cell have no entry. -/
structure Crossword where
  vars : List Variable
  words : List Word
  overlaps : Variable → Variable → Option (Nat × Nat)

/-- Modelled from the spec: the puzzle model exposes, per variable, the set
of neighbouring variables, namely the other variables sharing a cell with it,
which are exactly those with an overlap entry. -/
def neighbors (cw : Crossword) (x : Variable) : List Variable :=
  cw.vars.filter (fun y => decide (y ≠ x) && (cw.overlaps x y).isSome)

/-- Initial domain store: every variable starts with a copy of the full word
list (CrosswordCreator.__init__). -/
def initialDomains (cw : Crossword) : Domains :=
  fun _ => cw.words

/-- CrosswordCreator.enforce_node_consistency: keep, in each variable's
domain, exactly the words whose length equals the variable's length. -/
def enforce_node_consistency (cw : Crossword) (d : Domains) : Domains :=
  fun v => (d v).filter (fun w => w.length == v.length)

/-- CrosswordCreator.revise: make x arc-consistent with y. With no overlap
entry the arc is not revised. Otherwise every word of x's domain whose
character at the first overlap index appears at the second overlap index of
no word of y's domain is removed; the set difference performed by the Python
code is embedded as keeping the supported words. The returned pair is the
revised flag together with the resulting domain store. -/
def revise (cw : Crossword) (x y : Variable) (d : Domains) : Bool × Domains :=
  match cw.overlaps x y with
  | none => (false, d)
  | some (i, j) =>
    let lettersY := (d y).map (fun w => w.getD j '?')
    let toRemove := (d x).filter (fun w => ! lettersY.contains (w.getD i '?'))
    if toRemove.isEmpty then (false, d)
    else (true, Function.update d x ((d x).filter (fun w => lettersY.contains (w.getD i '?'))))

theorem revise_false_snd {cw : Crossword} {x y : Variable} {d : Domains}
    (h : (revise cw x y d).1 = false) : (revise cw x y d).2 = d := by
  unfold revise at *
  rcases hov : cw.overlaps x y with _ | ⟨i, j⟩ <;> simp [hov] at h ⊢
  split at h
  · rw [if_pos (by assumption)]
  · simp at h

theorem length_filter_lt_of_mem_neg {α : Type} {l : List α} {p : α → Bool} {a : α}
    (ha : a ∈ l) (hpa : p a = false) : (l.filter p).length < l.length := by
  induction l with
  | nil => cases ha
  | cons b t ih =>
    cases hpb : p b with
    | false =>
      have hf : (b :: t).filter p = t.filter p := by simp [List.filter_cons, hpb]
      rw [hf]
      rcases List.mem_cons.mp ha with rfl | hat
      · exact Nat.lt_succ_of_le (List.length_filter_le p t)
      · exact Nat.lt_succ_of_lt (ih hat)
    | true =>
      have hf : (b :: t).filter p = b :: t.filter p := by simp [List.filter_cons, hpb]
      rw [hf]
      have hat : a ∈ t := by
        rcases List.mem_cons.mp ha with rfl | hat
        · rw [hpb] at hpa; cases hpa
        · exact hat
      simpa [List.length_cons] using Nat.succ_lt_succ (ih hat)

theorem revise_true_spec {cw : Crossword} {x y : Variable} {d : Domains} {d2 : Domains}
    (h : revise cw x y d = (true, d2)) :
    ∃ l : List Word, d2 = Function.update d x l ∧ l.length < (d x).length := by
  unfold revise at h
  rcases hov : cw.overlaps x y with _ | ⟨i, j⟩
  · rw [hov] at h; simp at h
  · rw [hov] at h
    simp only at h
    split at h
    · simp at h
    · rename_i hne
      injection h with h1 h2
      refine ⟨_, h2.symm, ?_⟩
      rw [List.isEmpty_iff] at hne
      rcases List.exists_mem_of_ne_nil _ hne with ⟨w, hw⟩
      rw [List.mem_filter] at hw
      exact length_filter_lt_of_mem_neg hw.1 (by simpa using hw.2)

/-- Total number of candidate words over the crossword's variables; first
component of the termination measure for the AC-3 worklist loop. -/
def domTotal (cw : Crossword) (d : Domains) : Nat :=
  (cw.vars.map (fun v => (d v).length)).sum

/-- Number of queued arcs whose source variable is not a crossword variable;
such arcs can only come from the caller-supplied starting arc list and are
never re-enqueued, giving the second component of the termination measure. -/
def badCount (cw : Crossword) (q : List (Variable × Variable)) : Nat :=
  (q.filter (fun p => ! cw.vars.contains p.1)).length

theorem domTotal_update_lt {cw : Crossword} {d : Domains} {x : Variable} {l : List Word}
    (hx : x ∈ cw.vars) (hl : l.length < (d x).length) :
    domTotal cw (Function.update d x l) < domTotal cw d := by
  unfold domTotal
  refine List.sum_lt_sum _ _ ?_ ⟨x, hx, ?_⟩
  · intro v hv
    by_cases hvx : v = x
    · subst hvx; rw [Function.update_same]; exact Nat.le_of_lt hl
    · rw [Function.update_noteq hvx]
  · rw [Function.update_same]; exact hl

theorem domTotal_update_eq {cw : Crossword} {d : Domains} {x : Variable} {l : List Word}
    (hx : x ∉ cw.vars) :
    domTotal cw (Function.update d x l) = domTotal cw d := by
  unfold domTotal
  congr 1
  refine List.map_congr_left ?_
  intro v hv
  rw [Function.update_noteq (fun hvx => hx (by rw [← hvx]; exact hv))]

theorem badCount_cons {cw : Crossword} {a : Variable × Variable}
    {q : List (Variable × Variable)} :
    badCount cw (a :: q) = (if cw.vars.contains a.1 then 0 else 1) + badCount cw q := by
  unfold badCount
  rw [List.filter_cons]
  cases hc : cw.vars.contains a.1 <;> simp [hc] <;> omega

theorem badCount_append {cw : Crossword} {q r : List (Variable × Variable)} :
    badCount cw (q ++ r) = badCount cw q + badCount cw r := by
  unfold badCount
  rw [List.filter_append, List.length_append]

theorem badCount_enqueued {cw : Crossword} {x y : Variable} :
    badCount cw (((neighbors cw x).filter (fun z => decide (z ≠ y))).map (fun z => (z, x))) = 0 := by
  unfold badCount
  rw [List.length_eq_zero, List.filter_eq_nil_iff]
  intro p hp
  rcases List.mem_map.mp hp with ⟨z, hz, rfl⟩
  have hzvars : z ∈ cw.vars := List.mem_of_mem_filter (List.mem_of_mem_filter hz)
  simp [hzvars]

/-- The worklist loop of CrosswordCreator.ac3: pop an arc (x, y), revise x
against y; on a revision that empties x's domain fail immediately, on any
other revision re-enqueue (z, x) for every neighbour z of x other than y;
when the queue drains, succeed exactly when every variable's domain is
non-empty. A failed revision leaves the domain store untouched
(revise_false_snd), so the loop continues with the same store. -/
def ac3Loop (cw : Crossword) (queue : List (Variable × Variable)) (d : Domains) :
    Bool × Domains :=
  match queue with
  | [] => (cw.vars.all (fun v => ! (d v).isEmpty), d)
  | (x, y) :: rest =>
    match hrev : revise cw x y d with
    | (false, dSame) => ac3Loop cw rest d
    | (true, d2) =>
      if (d2 x).isEmpty then (false, d2)
      else ac3Loop cw (rest ++ ((neighbors cw x).filter (fun z => decide (z ≠ y))).map (fun z => (z, x))) d2
termination_by (domTotal cw d, badCount cw queue, queue.length)
decreasing_by
  · -- arc not revised: domain store unchanged, queue strictly smaller
    refine Prod.Lex.right _ ?_
    by_cases hx : x ∈ cw.vars
    · have hbc : badCount cw ((x, y) :: rest) = badCount cw rest := by
        rw [badCount_cons]; simp [hx]
      rw [hbc]
      refine Prod.Lex.right _ ?_
      simp
    · have hbc : badCount cw ((x, y) :: rest) = 1 + badCount cw rest := by
        rw [badCount_cons]; simp [hx]
      rw [hbc]
      exact Prod.Lex.left _ _ (by omega)
  · -- arc revised: either the total domain size drops (source is a
    -- crossword variable) or a bad-source arc is consumed for good
    rcases revise_true_spec hrev with ⟨l, rfl, hlt⟩
    by_cases hx : x ∈ cw.vars
    · exact Prod.Lex.left _ _ (domTotal_update_lt hx hlt)
    · rw [domTotal_update_eq hx]
      refine Prod.Lex.right _ ?_
      have hbc : badCount cw ((x, y) :: rest) = 1 + badCount cw rest := by
        rw [badCount_cons]; simp [hx]
      have hbc2 : badCount cw (rest ++ ((neighbors cw x).filter (fun z => decide (z ≠ y))).map (fun z => (z, x))) = badCount cw rest := by
        rw [badCount_append, badCount_enqueued]; omega
      rw [hbc, hbc2]
      exact Prod.Lex.left _ _ (by omega)

theorem ac3Loop_nil (cw : Crossword) (d : Domains) :
    ac3Loop cw [] d = (cw.vars.all (fun v => ! (d v).isEmpty), d) := by
  rw [ac3Loop]

theorem ac3Loop_cons (cw : Crossword) (x y : Variable)
    (rest : List (Variable × Variable)) (d : Domains) :
    ac3Loop cw ((x, y) :: rest) d =
      if (revise cw x y d).1 then
        if ((revise cw x y d).2 x).isEmpty then (false, (revise cw x y d).2)
        else ac3Loop cw (rest ++ ((neighbors cw x).filter (fun z => decide (z ≠ y))).map (fun z => (z, x))) (revise cw x y d).2
      else ac3Loop cw rest d := by
  rw [ac3Loop]
  rcases h : revise cw x y d with ⟨b, d2⟩
  cases b <;> simp [h]

/-- Default starting arc list: all ordered pairs (x, y) with y a neighbour of
x, iterating x over the domain store's keys, exactly the list comprehension
built in CrosswordCreator.solve and as ac3's default. -/
def allArcs (cw : Crossword) : List (Variable × Variable) :=
  cw.vars.bind (fun x => (neighbors cw x).map (fun y => (x, y)))

/-- CrosswordCreator.ac3. The Python parameter arcs=None is an Option: an
explicitly empty list returns success immediately; otherwise the worklist is
seeded from the given list, or from all arcs by default. The result pairs the
returned Bool with the final domain store. -/
def ac3 (cw : Crossword) (arcs : Option (List (Variable × Variable))) (d : Domains) :
    Bool × Domains :=
  match arcs with
  | some [] => (true, d)
  | some (a :: rest) => ac3Loop cw (a :: rest) d
  | none => ac3Loop cw (allArcs cw) d

/-- The arc (x, y) is consistent in the domain store d: every word in x's
domain has, at the overlap, a supporting word in y's domain; arcs without an
overlap entry are vacuously consistent. -/
def consistentArc (cw : Crossword) (d : Domains) (x y : Variable) : Prop :=
  match cw.overlaps x y with
  | none => True
  | some (i, j) => ∀ w ∈ d x, ∃ nw ∈ d y, w.getD i '?' = nw.getD j '?'

theorem revise_false_of_consistentArc {cw : Crossword} {d : Domains} {x y : Variable}
    (h : consistentArc cw d x y) : revise cw x y d = (false, d) := by
  unfold revise
  rcases hov : cw.overlaps x y with _ | ⟨i, j⟩
  · rfl
  · unfold consistentArc at h
    rw [hov] at h
    simp only
    rw [if_pos]
    rw [List.isEmpty_iff, List.filter_eq_nil_iff]
    intro w hw
    rcases h w hw with ⟨nw, hnw, heq⟩
    simp [List.mem_map]
    exact ⟨nw, hnw, by simpa using heq.symm⟩

theorem consistentArc_of_revise_false {cw : Crossword} {d : Domains} {x y : Variable}
    (h : (revise cw x y d).1 = false) : consistentArc cw d x y := by
  unfold revise at h
  unfold consistentArc
  rcases hov : cw.overlaps x y with _ | ⟨i, j⟩
  · trivial
  · rw [hov] at h
    simp only at h
    split at h
    · rename_i hempty
      rw [List.isEmpty_iff, List.filter_eq_nil_iff] at hempty
      intro w hw
      have := hempty w hw
      simp [List.mem_map] at this
      rcases this with ⟨nw, hnw, heq⟩
      exact ⟨nw, hnw, by simpa using heq.symm⟩
    · simp at h

theorem revise_true_full {cw : Crossword} {x y : Variable} {d : Domains} {d2 : Domains}
    (h : revise cw x y d = (true, d2)) :
    ∃ i j, cw.overlaps x y = some (i, j) ∧
      d2 = Function.update d x
        ((d x).filter (fun w => ((d y).map (fun w => w.getD j '?')).contains (w.getD i '?'))) := by
  unfold revise at h
  rcases hov : cw.overlaps x y with _ | ⟨i, j⟩
  · rw [hov] at h; simp at h
  · rw [hov] at h
    simp only at h
    split at h
    · simp at h
    · injection h with h1 h2
      exact ⟨i, j, rfl, h2.symm⟩

theorem revise_subset {cw : Crossword} {x y : Variable} {d : Domains} :
    ∀ v w, w ∈ (revise cw x y d).2 v → w ∈ d v := by
  intro v w hw
  rcases hb : (revise cw x y d).1 with _ | _
  · rw [revise_false_snd hb] at hw; exact hw
  · have hpair : revise cw x y d = (true, (revise cw x y d).2) := by
      rcases hr : revise cw x y d with ⟨b, dd⟩
      rw [hr] at hb; cases hb; rfl
    rcases revise_true_full hpair with ⟨i, j, hov, hupd⟩
    rw [hupd] at hw
    by_cases hvx : v = x
    · subst hvx
      rw [Function.update_same] at hw
      exact List.mem_of_mem_filter hw
    · rw [Function.update_noteq hvx] at hw
      exact hw

theorem ac3Loop_subset {cw : Crossword} :
    ∀ (queue : List (Variable × Variable)) (d : Domains) (v : Variable) (w : Word),
      w ∈ (ac3Loop cw queue d).2 v → w ∈ d v := by
  intro queue d
  induction queue, d using ac3Loop.induct cw with
  | case1 d =>
    intro v w hw
    rw [ac3Loop_nil] at hw
    exact hw
  | case2 d x y rest dSame hrev ih =>
    intro v w hw
    rw [ac3Loop_cons, hrev] at hw
    simp only at hw
    exact ih v w hw
  | case3 d x y rest d2 hrev hemp =>
    intro v w hw
    rw [ac3Loop_cons, hrev] at hw
    simp only [hemp] at hw
    simp only [if_true, if_pos trivial] at hw
    have : w ∈ (revise cw x y d).2 v := by
      rw [hrev]; exact hw
    exact revise_subset v w this
  | case4 d x y rest d2 hrev hemp ih =>
    intro v w hw
    rw [ac3Loop_cons, hrev] at hw
    simp only [hemp, if_false, if_true] at hw
    have hmem : w ∈ d2 v := ih v w (by simpa using hw)
    have : w ∈ (revise cw x y d).2 v := by rw [hrev]; exact hmem
    exact revise_subset v w this

theorem ac3Loop_true_nonempty {cw : Crossword} :
    ∀ (queue : List (Variable × Variable)) (d : Domains) (d2 : Domains),
      ac3Loop cw queue d = (true, d2) → ∀ v ∈ cw.vars, d2 v ≠ [] := by
  intro queue d
  induction queue, d using ac3Loop.induct cw with
  | case1 d =>
    intro d2 h v hv
    rw [ac3Loop_nil] at h
    injection h with h1 h2
    subst h2
    have := List.all_eq_true.mp h1 v hv
    simpa [List.isEmpty_iff] using this
  | case2 d x y rest dSame hrev ih =>
    intro d2 h v hv
    rw [ac3Loop_cons, hrev] at h
    simp only at h
    exact ih d2 h v hv
  | case3 d x y rest d2 hrev hemp =>
    intro d3 h v hv
    rw [ac3Loop_cons, hrev] at h
    simp only [hemp, if_pos trivial] at h
    cases h
  | case4 d x y rest d2 hrev hemp ih =>
    intro d3 h v hv
    rw [ac3Loop_cons, hrev] at h
    simp only [hemp, if_false] at h
    exact ih d3 (by simpa using h) v hv

/-- Well-formedness of the modelled overlap table, from the spec: overlaps are
recorded per unordered pair of distinct slots, so the entry for (y, x) is the
entry for (x, y) with the two indices swapped. -/
def OverlapsSymm (cw : Crossword) : Prop :=
  ∀ x y i j, cw.overlaps x y = some (i, j) → cw.overlaps y x = some (j, i)

/-- Well-formedness of the modelled overlap table, from the spec: entries
exist only for pairs of distinct slots, so no variable overlaps itself. -/
def OverlapsIrrefl (cw : Crossword) : Prop :=
  ∀ x, cw.overlaps x x = none

theorem mem_neighbors {cw : Crossword} {x z : Variable} :
    z ∈ neighbors cw x ↔ z ∈ cw.vars ∧ z ≠ x ∧ (cw.overlaps x z).isSome := by
  unfold neighbors
  rw [List.mem_filter]
  simp

theorem consistentArc_mono {cw : Crossword} {d d2 : Domains} {x y : Variable}
    (h1 : ∀ w, w ∈ d2 x → w ∈ d x) (h2 : d2 y = d y)
    (h : consistentArc cw d x y) : consistentArc cw d2 x y := by
  unfold consistentArc at *
  rcases hov : cw.overlaps x y with _ | ⟨i, j⟩
  · trivial
  · rw [hov] at h
    intro w hw
    rcases h w (h1 w hw) with ⟨nw, hnw, heq⟩
    exact ⟨nw, h2 ▸ hnw, heq⟩

theorem consistentArc_revise_self {cw : Crossword} {d d2 : Domains} {x y : Variable}
    (hxy : x ≠ y) (h : revise cw x y d = (true, d2)) : consistentArc cw d2 x y := by
  rcases revise_true_full h with ⟨i, j, hov, hupd⟩
  unfold consistentArc
  rw [hov]
  intro w hw
  rw [hupd, Function.update_same, List.mem_filter] at hw
  rcases hw with ⟨hwx, hcont⟩
  simp [List.mem_map] at hcont
  rcases hcont with ⟨nw, hnw, heq⟩
  refine ⟨nw, ?_, by simpa using heq.symm⟩
  rw [hupd, Function.update_noteq (Ne.symm hxy)]
  exact hnw

theorem consistentArc_revise_back {cw : Crossword} {d d2 : Domains} {x y : Variable}
    (hsym : OverlapsSymm cw) (hxy : x ≠ y) (h : revise cw x y d = (true, d2))
    (hyx : consistentArc cw d y x) : consistentArc cw d2 y x := by
  rcases revise_true_full h with ⟨i, j, hov, hupd⟩
  have hov2 : cw.overlaps y x = some (j, i) := hsym x y i j hov
  unfold consistentArc at *
  rw [hov2] at hyx ⊢
  intro w hw
  have hwdy : w ∈ d y := by
    rw [hupd, Function.update_noteq (Ne.symm hxy)] at hw
    exact hw
  rcases hyx w hwdy with ⟨nw, hnw, heq⟩
  refine ⟨nw, ?_, heq⟩
  rw [hupd, Function.update_same, List.mem_filter]
  refine ⟨hnw, ?_⟩
  simp [List.mem_map]
  exact ⟨w, hwdy, by simpa using heq⟩

theorem ac3Loop_postcondition {cw : Crossword}
    (hsym : OverlapsSymm cw) (hirr : OverlapsIrrefl cw) :
    ∀ (queue : List (Variable × Variable)) (d : Domains) (d2 : Domains),
      (∀ u v, u ∈ cw.vars → v ∈ neighbors cw u → (u, v) ∉ queue → consistentArc cw d u v) →
      ac3Loop cw queue d = (true, d2) →
      ∀ u v, u ∈ cw.vars → v ∈ neighbors cw u → consistentArc cw d2 u v := by
  intro queue d
  induction queue, d using ac3Loop.induct cw with
  | case1 d =>
    intro d2 hinv h u v hu hv
    rw [ac3Loop_nil] at h
    injection h with h1 h2
    subst h2
    exact hinv u v hu hv (List.not_mem_nil _)
  | case2 d x y rest dSame hrev ih =>
    intro d2 hinv h u v hu hv
    rw [ac3Loop_cons, hrev] at h
    simp only at h
    refine ih d2 ?_ h u v hu hv
    intro u v hu hv hnotin
    by_cases huv : (u, v) = (x, y)
    · have hfalse : (revise cw x y d).1 = false := by rw [hrev]
      have := consistentArc_of_revise_false hfalse
      injection huv with hux hvy
      subst hux; subst hvy
      exact this
    · exact hinv u v hu hv (by
        intro hmem
        rcases List.mem_cons.mp hmem with heq | hmem2
        · exact huv heq
        · exact hnotin hmem2)
  | case3 d x y rest d2 hrev hemp =>
    intro d3 hinv h u v hu hv
    rw [ac3Loop_cons, hrev] at h
    simp only [hemp, if_pos trivial] at h
    cases h
  | case4 d x y rest d2 hrev hemp ih =>
    intro d3 hinv h u v hu hv
    rw [ac3Loop_cons, hrev] at h
    simp only [hemp, if_false] at h
    rcases revise_true_full hrev with ⟨i, j, hov, hupd⟩
    have hxy : x ≠ y := by
      intro hcontra
      subst hcontra
      rw [hirr x] at hov
      cases hov
    have hd2x : ∀ w, w ∈ d2 x → w ∈ d x := by
      intro w hw
      rw [hupd, Function.update_same] at hw
      exact List.mem_of_mem_filter hw
    have hd2ne : ∀ v, v ≠ x → d2 v = d v := by
      intro v hvne
      rw [hupd, Function.update_noteq hvne]
    refine ih d3 ?_ (by simpa using h) u v hu hv
    intro u v hu hv hnotin
    have hnotrest : (u, v) ∉ rest := fun hmem => hnotin (List.mem_append_left _ hmem)
    have hnotapp : (u, v) ∉ ((neighbors cw x).filter (fun z => decide (z ≠ y))).map (fun z => (z, x)) :=
      fun hmem => hnotin (List.mem_append_right _ hmem)
    by_cases hux : u = x
    · subst hux
      by_cases hvy : v = y
      · subst hvy
        exact consistentArc_revise_self hxy hrev
      · have hvx : v ≠ u := (mem_neighbors.mp hv).2.1
        have hold : consistentArc cw d u v := by
          refine hinv u v hu hv ?_
          intro hmem
          rcases List.mem_cons.mp hmem with heq | hmem2
          · exact hvy (congrArg Prod.snd heq)
          · exact hnotrest hmem2
        exact consistentArc_mono hd2x (hd2ne v hvx) hold
    · by_cases hvx : v = x
      · subst hvx
        by_cases huy : u = y
        · subst huy
          have hold : consistentArc cw d u v := by
            refine hinv u v hu hv ?_
            intro hmem
            rcases List.mem_cons.mp hmem with heq | hmem2
            · rw [Prod.mk.injEq] at heq
              exact hxy heq.2
            · exact hnotrest hmem2
          exact consistentArc_revise_back hsym hxy hrev hold
        · exfalso
          refine hnotapp ?_
          rw [List.mem_map]
          refine ⟨u, ?_, rfl⟩
          rw [List.mem_filter]
          refine ⟨?_, by simp [huy]⟩
          rw [mem_neighbors]
          rcases mem_neighbors.mp hv with ⟨hvvars, hvneu, hovsome⟩
          rcases hovopt : cw.overlaps u v with _ | ⟨a, b⟩
          · rw [hovopt] at hovsome; cases hovsome
          · exact ⟨hu, Ne.symm hvneu, by rw [hsym u v a b hovopt]; rfl⟩
      · have hold : consistentArc cw d u v := by
          refine hinv u v hu hv ?_
          intro hmem
          rcases List.mem_cons.mp hmem with heq | hmem2
          · exact hux (congrArg Prod.fst heq)
          · exact hnotrest hmem2
        refine consistentArc_mono ?_ (hd2ne v hvx) hold
        intro w hw
        rw [hd2ne u hux] at hw
        exact hw

theorem mem_allArcs {cw : Crossword} {x y : Variable} :
    (x, y) ∈ allArcs cw ↔ x ∈ cw.vars ∧ y ∈ neighbors cw x := by
  unfold allArcs
  rw [List.mem_bind]
  constructor
  · rintro ⟨u, hu, hmem⟩
    rcases List.mem_map.mp hmem with ⟨v, hv, heq⟩
    rw [Prod.mk.injEq] at heq
    rcases heq with ⟨rfl, rfl⟩
    exact ⟨hu, hv⟩
  · rintro ⟨hx, hy⟩
    exact ⟨x, hx, List.mem_map.mpr ⟨y, hy, rfl⟩⟩

theorem ac3Loop_noop {cw : Crossword} :
    ∀ (queue : List (Variable × Variable)) (d : Domains),
      (∀ a ∈ queue, consistentArc cw d a.1 a.2) →
      ac3Loop cw queue d = (cw.vars.all (fun v => ! (d v).isEmpty), d) := by
  intro queue
  induction queue with
  | nil => intro d h; exact ac3Loop_nil cw d
  | cons a rest ih =>
    intro d h
    rcases a with ⟨x, y⟩
    have hr : revise cw x y d = (false, d) :=
      revise_false_of_consistentArc (h (x, y) (List.mem_cons_self _ _))
    rw [ac3Loop_cons, hr]
    simp only [Bool.false_eq_true, if_false]
    exact ih d (fun a ha => h a (List.mem_cons_of_mem _ ha))

theorem ac3_none_fix {cw : Crossword} {d d1 : Domains}
    (hsym : OverlapsSymm cw) (hirr : OverlapsIrrefl cw)
    (h : ac3 cw none d = (true, d1)) : ac3 cw none d1 = (true, d1) := by
  have hloop : ac3Loop cw (allArcs cw) d = (true, d1) := h
  have hcons : ∀ u v, u ∈ cw.vars → v ∈ neighbors cw u → consistentArc cw d1 u v :=
    ac3Loop_postcondition hsym hirr (allArcs cw) d d1
      (fun u v hu hv hnot => absurd (mem_allArcs.mpr ⟨hu, hv⟩) hnot) hloop
  have hne : ∀ v ∈ cw.vars, d1 v ≠ [] := ac3Loop_true_nonempty (allArcs cw) d d1 hloop
  show ac3Loop cw (allArcs cw) d1 = (true, d1)
  rw [ac3Loop_noop (allArcs cw) d1 ?_]
  · congr 1
    rw [List.all_eq_true]
    intro v hv
    have := hne v hv
    simpa [List.isEmpty_iff] using this
  · rintro ⟨u, v⟩ ha
    rcases mem_allArcs.mp ha with ⟨hu, hv⟩
    exact hcons u v hu hv

/-- Dictionary lookup assignment[v]: the word of the first entry for v. -/
def lookupA (a : Assign) (v : Variable) : Option Word :=
  (a.find? (fun p => p.1 == v)).map Prod.snd

/-- The keys of the assignment dict, in insertion order. -/
def keysA (a : Assign) : List Variable :=
  a.map Prod.fst

/-- Python assignment[v] = w: overwrite in place when the key is present,
append otherwise. -/
def insertA (a : Assign) (v : Variable) (w : Word) : Assign :=
  if (keysA a).contains v then a.map (fun p => if p.1 = v then (v, w) else p)
  else a ++ [(v, w)]

/-- Python del assignment[v]. -/
def eraseA (a : Assign) (v : Variable) : Assign :=
  a.filter (fun p => ! (p.1 == v))

/-- CrosswordCreator.assignment_complete: the key set equals the crossword's
variable set. -/
def assignment_complete (cw : Crossword) (a : Assign) : Bool :=
  (keysA a).all (fun v => cw.vars.contains v) && cw.vars.all (fun v => (keysA a).contains v)

/-- CrosswordCreator.consistent: the assigned words are pairwise distinct
(the size of the word set equals the number of entries), each assigned word
has its variable's length, and every assigned pair of neighbours agrees on
the overlap characters; unassigned neighbours are skipped. The none branch of
the inner overlap match is never taken, because neighbours always carry an
overlap entry in the puzzle model. -/
def consistent (cw : Crossword) (a : Assign) : Bool :=
  ((a.map Prod.snd).dedup.length == a.length) &&
  a.all (fun p =>
    (p.2.length == p.1.length) &&
    (neighbors cw p.1).all (fun n =>
      match lookupA a n with
      | none => true
      | some nw =>
        match cw.overlaps p.1 n with
        | none => true
        | some (i, j) => p.2.getD i '?' == nw.getD j '?'))

/-- Strict comparison of Python tuples (domain size, negated neighbour
count), mirroring the tuple key used with min in
select_unassigned_variable. -/
def keyLt (p q : Nat × Int) : Bool :=
  decide (p.1 < q.1) || ((p.1 == q.1) && decide (p.2 < q.2))

/-- Python min(xs, key=k): the first element attaining the minimal key; none
on an empty list, where Python would raise ValueError. -/
def pyMin (key : Variable → Nat × Int) : List Variable → Option Variable
  | [] => none
  | x :: xs => some (xs.foldl (fun best v => if keyLt (key v) (key best) then v else best) x)

/-- CrosswordCreator.select_unassigned_variable: among unassigned variables,
minimise (current domain size, negated neighbour count). -/
def select_unassigned_variable (cw : Crossword) (d : Domains) (a : Assign) : Option Variable :=
  pyMin (fun v => ((d v).length, -(((neighbors cw v).length : Int))))
    (cw.vars.filter (fun v => ! (keysA a).contains v))

/-- The least-constraining-value score of a candidate word for variable x:
over the unassigned neighbours of x, the number of words in the neighbour's
current domain that disagree at the overlap characters. The none branch is
never taken, because neighbours always carry an overlap entry in the puzzle
model. -/
def lcvScore (cw : Crossword) (d : Domains) (x : Variable) (a : Assign) (w : Word) : Nat :=
  (((neighbors cw x).filter (fun n => ! (keysA a).contains n)).map (fun n =>
    match cw.overlaps x n with
    | some (i, j) => ((d n).filter (fun nw => ! (w.getD i '?' == nw.getD j '?'))).length
    | none => 0)).sum

/-- CrosswordCreator.order_domain_values: the current domain of x sorted
ascending by least-constraining-value score. Python sorted is a stable sort
by the key; it is embedded as insertion sort, which is also stable. -/
def order_domain_values (cw : Crossword) (d : Domains) (x : Variable) (a : Assign) : List Word :=
  (d x).insertionSort (fun w1 w2 => lcvScore cw d x a w1 ≤ lcvScore cw d x a w2)

/-- Python truthiness of the value returned by a recursive backtrack call:
None and the empty dict are falsy. -/
def isTruthy (r : Option Assign) : Bool :=
  match r with
  | none => false
  | some a => ! a.isEmpty

/-- The value loop of CrosswordCreator.backtrack, for one selected variable:
try each candidate word in order; assign it, and if the extended assignment
is consistent recurse (through the function argument bt); a truthy result is
returned as is, otherwise the tentative entry is deleted and the next word is
tried. The pair returned is the Python return value together with the final
state of the mutated assignment dict. -/
def btLoop (cw : Crossword) (x : Variable) (bt : Assign → Option Assign × Assign) :
    List Word → Assign → Option Assign × Assign
  | [], a => (none, a)
  | w :: rest, a =>
    let a1 := insertA a x w
    if consistent cw a1 then
      match bt a1 with
      | (r, a2) =>
        if isTruthy r then (r, a2)
        else btLoop cw x bt rest (eraseA a2 x)
    else btLoop cw x bt rest (eraseA a1 x)

/-- CrosswordCreator.backtrack. The Python recursion has no bound; the fuel
argument only feeds the structural recursion and is irrelevant on every run
that starts from solve, whose fuel exceeds the number of variables and hence
the reachable recursion depth. The pair returned is the Python return value
together with the final state of the mutated assignment dict. -/
def backtrack (cw : Crossword) (d : Domains) : Nat → Assign → Option Assign × Assign
  | 0, a => (none, a)
  | fuel + 1, a =>
    if assignment_complete cw a then (some a, a)
    else
      match select_unassigned_variable cw d a with
      | none => (none, a)
      | some x => btLoop cw x (backtrack cw d fuel) (order_domain_values cw d x a) a

/-- CrosswordCreator.solve: enforce node consistency, run AC-3 seeded with
all arcs, return None on failure, otherwise run backtracking from the empty
assignment. -/
def solve (cw : Crossword) : Option Assign :=
  match ac3 cw (some (allArcs cw)) (enforce_node_consistency cw (initialDomains cw)) with
  | (false, d1) => none
  | (true, d1) => (backtrack cw d1 (cw.vars.length + 1) []).1

theorem keysA_append {a b : Assign} : keysA (a ++ b) = keysA a ++ keysA b := by
  unfold keysA
  rw [List.map_append]

theorem not_mem_keysA {a : Assign} {x : Variable} (h : x ∉ keysA a) :
    ∀ p ∈ a, p.1 ≠ x := by
  intro p hp hpx
  exact h (List.mem_map.mpr ⟨p, hp, hpx⟩)

theorem insertA_of_not_mem {a : Assign} {x : Variable} {w : Word} (h : x ∉ keysA a) :
    insertA a x w = a ++ [(x, w)] := by
  unfold insertA
  rw [if_neg]
  simpa using h

theorem keysA_insertA {a : Assign} {x : Variable} {w : Word} (h : x ∉ keysA a) :
    keysA (insertA a x w) = keysA a ++ [x] := by
  rw [insertA_of_not_mem h, keysA_append]
  rfl

theorem eraseA_insertA {a : Assign} {x : Variable} {w : Word} (h : x ∉ keysA a) :
    eraseA (insertA a x w) x = a := by
  rw [insertA_of_not_mem h]
  unfold eraseA
  rw [List.filter_append]
  have h1 : a.filter (fun p => ! (p.1 == x)) = a := by
    rw [List.filter_eq_self]
    intro p hp
    simpa using not_mem_keysA h p hp
  have h2 : List.filter (fun p => ! (p.1 == x)) [(x, w)] = [] := by
    simp
  rw [h1, h2, List.append_nil]

theorem lookupA_insertA_self {a : Assign} {x : Variable} {w : Word} (h : x ∉ keysA a) :
    lookupA (insertA a x w) x = some w := by
  rw [insertA_of_not_mem h]
  unfold lookupA
  rw [List.find?_append]
  have h1 : a.find? (fun p => p.1 == x) = none := by
    rw [List.find?_eq_none]
    intro p hp
    simpa using not_mem_keysA h p hp
  rw [h1]
  simp

theorem lookupA_insertA_ne {a : Assign} {x u : Variable} {w : Word} (h : x ∉ keysA a)
    (hux : u ≠ x) : lookupA (insertA a x w) u = lookupA a u := by
  rw [insertA_of_not_mem h]
  unfold lookupA
  rw [List.find?_append]
  have h2 : List.find? (fun p => p.1 == u) [(x, w)] = none := by
    rw [List.find?_eq_none]
    intro p hp
    rcases List.mem_singleton.mp hp with rfl
    simpa using fun he => hux he.symm
  rw [h2]
  cases (a.find? (fun p => p.1 == u)) <;> rfl

theorem mem_keysA_lookup {a : Assign} {v : Variable} (h : v ∈ keysA a) :
    ∃ w, lookupA a v = some w := by
  rcases List.mem_map.mp h with ⟨p, hp, rfl⟩
  unfold lookupA
  have : (a.find? (fun q => q.1 == p.1)).isSome := by
    rw [List.find?_isSome]
    exact ⟨p, hp, by simp⟩
  rcases hfind : a.find? (fun q => q.1 == p.1) with _ | q
  · rw [hfind] at this; cases this
  · exact ⟨q.2, by rw [hfind]; rfl⟩

theorem lookupA_mem {a : Assign} {v : Variable} {w : Word} (h : lookupA a v = some w) :
    (v, w) ∈ a := by
  unfold lookupA at h
  rcases hfind : a.find? (fun q => q.1 == v) with _ | q
  · rw [hfind] at h; cases h
  · rw [hfind] at h
    have hq : q ∈ a := List.mem_of_find?_eq_some hfind
    have hqv : q.1 = v := by simpa using List.find?_some hfind
    have hqw : q.2 = w := by
      injection h with h2
    have : q = (v, w) := by
      rcases q with ⟨q1, q2⟩
      simp at hqv hqw
      rw [hqv, hqw]
    rw [← this]
    exact hq

theorem lookup_keysA_mem {a : Assign} {v : Variable} {w : Word}
    (h : lookupA a v = some w) : v ∈ keysA a :=
  List.mem_map.mpr ⟨(v, w), lookupA_mem h, rfl⟩

/-- Invariant package for one backtracking call on the assignment a: a
failure (None) restores the dict exactly; a returned solution r is the final
dict state, extends a, keeps keys duplicate-free, is complete and consistent
(provided a was consistent), and takes every entry either from a or from the
domain store. -/
@[reducible] def BtProp (cw : Crossword) (d : Domains) (out : Option Assign × Assign) (a : Assign) : Prop :=
  (out.1 = none → out.2 = a) ∧
  ∀ r, out.1 = some r →
    out.2 = r ∧ (∀ v, v ∈ keysA a → v ∈ keysA r) ∧
    ((keysA a).Nodup → (keysA r).Nodup) ∧
    (consistent cw a = true → assignment_complete cw r = true ∧ consistent cw r = true) ∧
    (∀ v w2, lookupA r v = some w2 → lookupA a v = some w2 ∨ w2 ∈ d v)

theorem btLoop_spec (cw : Crossword) (d : Domains) (x : Variable)
    (bt : Assign → Option Assign × Assign)
    (HB : ∀ a : Assign, BtProp cw d (bt a) a) :
    ∀ (values : List Word) (a : Assign), x ∉ keysA a → (∀ w ∈ values, w ∈ d x) →
      BtProp cw d (btLoop cw x bt values a) a := by
  intro values
  induction values with
  | nil =>
    intro a hx hvals
    exact ⟨fun _ => rfl, fun r hr => by cases hr⟩
  | cons w rest ih =>
    intro a hx hvals
    have hwd : w ∈ d x := hvals w (List.mem_cons_self _ _)
    have hrest : ∀ w2 ∈ rest, w2 ∈ d x := fun w2 hw2 => hvals w2 (List.mem_cons_of_mem _ hw2)
    show BtProp cw d (btLoop cw x bt (w :: rest) a) a
    rw [btLoop]
    simp only
    by_cases hcons : consistent cw (insertA a x w) = true
    · rw [if_pos hcons]
      rcases hbt : bt (insertA a x w) with ⟨r0, a2⟩
      simp only [hbt]
      rcases HB (insertA a x w) with ⟨hnone, hsome⟩
      rw [hbt] at hnone hsome
      simp only at hnone hsome
      rcases r0 with _ | r
      · -- recursive call failed: dict restored to insertA a x w, entry deleted
        have ha2 : a2 = insertA a x w := hnone rfl
        have herase : eraseA a2 x = a := by rw [ha2, eraseA_insertA hx]
        simp only [isTruthy, Bool.false_eq_true, if_false]
        rw [herase]
        exact ih a hx hrest
      · rcases hsome r rfl with ⟨ha2, hkeys, hnodup, hcc, hdom⟩
        have hxr : x ∈ keysA r := hkeys x (by rw [keysA_insertA hx]; exact List.mem_append_right _ (List.mem_singleton.mpr rfl))
        have hrne : r ≠ [] := by
          intro hcontra
          rw [hcontra] at hxr
          cases hxr
        have htruthy : isTruthy (some r) = true := by
          unfold isTruthy
          simpa [List.isEmpty_iff] using hrne
        rw [htruthy, if_pos rfl]
        refine ⟨fun hcontra => Option.noConfusion hcontra, fun r2 hr2 => ?_⟩
        injection hr2 with hr2
        subst hr2
        refine ⟨ha2, ?_, ?_, fun hconsa => hcc hcons, ?_⟩
        · intro v hv
          exact hkeys v (by rw [keysA_insertA hx]; exact List.mem_append_left _ hv)
        · intro hnd
          refine hnodup ?_
          rw [keysA_insertA hx]
          rw [List.nodup_append]
          exact ⟨hnd, List.nodup_singleton x, by simpa using hx⟩
        · intro v w2 hlook
          rcases hdom v w2 hlook with hleft | hright
          · by_cases hvx : v = x
            · subst hvx
              rw [lookupA_insertA_self hx] at hleft
              injection hleft with hleft
              subst hleft
              exact Or.inr hwd
            · rw [lookupA_insertA_ne hx hvx] at hleft
              exact Or.inl hleft
          · exact Or.inr hright
    · rw [if_neg hcons]
      rw [eraseA_insertA hx]
      exact ih a hx hrest

theorem select_unassigned_mem {cw : Crossword} {d : Domains} {a : Assign} {x : Variable}
    (h : select_unassigned_variable cw d a = some x) : x ∈ cw.vars ∧ x ∉ keysA a := by
  unfold select_unassigned_variable at h
  have hmem : x ∈ cw.vars.filter (fun v => ! (keysA a).contains v) := by
    rcases hfl : cw.vars.filter (fun v => ! (keysA a).contains v) with _ | ⟨b, t⟩
    · rw [hfl] at h; cases h
    · rw [hfl] at h
      unfold pyMin at h
      injection h with h
      rw [← hfl]
      rw [hfl]
      have : ∀ (t2 : List Variable) (acc : Variable), acc ∈ b :: t →
          t2 ⊆ b :: t →
          t2.foldl (fun best v => if keyLt ((fun v => ((d v).length, -(((neighbors cw v).length : Int)))) v) ((fun v => ((d v).length, -(((neighbors cw v).length : Int)))) best) then v else best) acc ∈ b :: t := by
        intro t2
        induction t2 with
        | nil => intro acc hacc hsub; exact hacc
        | cons c t3 ih3 =>
          intro acc hacc hsub
          rw [List.foldl_cons]
          refine ih3 _ ?_ (fun z hz => hsub (List.mem_cons_of_mem _ hz))
          by_cases hk : keyLt ((d c).length, -(((neighbors cw c).length : Int))) ((d acc).length, -(((neighbors cw acc).length : Int))) = true
          · simp only [hk, if_pos]
            exact hsub (List.mem_cons_self _ _)
          · simp only [hk]
            rw [if_neg (by simpa using hk)]
            exact hacc
      rw [← h]
      exact this t b (List.mem_cons_self _ _) (fun z hz => List.mem_cons_of_mem _ hz)
  rw [List.mem_filter] at hmem
  refine ⟨hmem.1, ?_⟩
  have := hmem.2
  simpa using this

theorem backtrack_spec (cw : Crossword) (d : Domains) :
    ∀ (fuel : Nat) (a : Assign), BtProp cw d (backtrack cw d fuel a) a := by
  intro fuel
  induction fuel with
  | zero =>
    intro a
    rw [backtrack]
    exact ⟨fun _ => rfl, fun r hr => by cases hr⟩
  | succ fuel ih =>
    intro a
    rw [backtrack]
    by_cases hcomp : assignment_complete cw a = true
    · rw [if_pos hcomp]
      refine ⟨fun hcontra => Option.noConfusion hcontra, fun r hr => ?_⟩
      injection hr with hr
      subst hr
      exact ⟨rfl, fun v hv => hv, id, fun hcons => ⟨hcomp, hcons⟩,
        fun v w2 hl => Or.inl hl⟩
    · rw [if_neg hcomp]
      rcases hsel : select_unassigned_variable cw d a with _ | x
      · exact ⟨fun _ => rfl, fun r hr => by cases hr⟩
      · rcases select_unassigned_mem hsel with ⟨hxvars, hxa⟩
        refine btLoop_spec cw d x (backtrack cw d fuel) ih _ a hxa ?_
        intro w hw
        unfold order_domain_values at hw
        exact (List.perm_insertionSort _ _).mem_iff.mp hw

theorem dedup_length_beq {α : Type} [DecidableEq α] {l : List α} :
    (l.dedup.length == l.length) = true ↔ l.Nodup := by
  rw [beq_iff_eq]
  constructor
  · intro h
    rw [← List.dedup_eq_self]
    exact (List.dedup_sublist l).eq_of_length h
  · intro h
    rw [List.dedup_eq_self.mpr h]

theorem lookupA_of_mem_nodup {a : Assign} {v : Variable} {w : Word}
    (hnd : (keysA a).Nodup) (hmem : (v, w) ∈ a) : lookupA a v = some w := by
  induction a with
  | nil => cases hmem
  | cons q t ih =>
    have hnd2 : (keysA t).Nodup := (List.nodup_cons.mp hnd).2
    have hq : q.1 ∉ keysA t := (List.nodup_cons.mp hnd).1
    rcases List.mem_cons.mp hmem with rfl | hmt
    · unfold lookupA
      rw [List.find?_cons]
      simp
    · have hv : v ∈ keysA t := List.mem_map.mpr ⟨(v, w), hmt, rfl⟩
      have hqv : q.1 ≠ v := fun hcontra => hq (hcontra ▸ hv)
      unfold lookupA
      rw [List.find?_cons]
      have hbeq : (q.1 == v) = false := by simpa using hqv
      rw [hbeq]
      exact ih hnd2 hmt

/-- Characterisation of CrosswordCreator.consistent on an assignment with
duplicate-free keys (every Python dict): it returns True exactly when the
assigned words are pairwise distinct, every assigned word has its variable's
length, and every assigned pair of neighbours agrees at the overlap
indices. -/
theorem consistent_iff {cw : Crossword} {a : Assign} (hnd : (keysA a).Nodup) :
    consistent cw a = true ↔
      ((∀ v1 w1 v2 w2, lookupA a v1 = some w1 → lookupA a v2 = some w2 → v1 ≠ v2 → w1 ≠ w2) ∧
       (∀ v w, lookupA a v = some w → w.length = v.length) ∧
       (∀ v w n nw i j, lookupA a v = some w → n ∈ neighbors cw v → lookupA a n = some nw →
         cw.overlaps v n = some (i, j) → w.getD i '?' = nw.getD j '?')) := by
  have hand : a.Nodup := List.Nodup.of_map Prod.fst hnd
  unfold consistent
  rw [Bool.and_eq_true, List.all_eq_true]
  constructor
  · rintro ⟨hdedup, hall⟩
    have hvals : (a.map Prod.snd).Nodup := by
      have h1 : (a.map Prod.snd).dedup.length = (a.map Prod.snd).length := by
        have := beq_iff_eq.mp hdedup
        rw [this, List.length_map]
      rw [← List.dedup_eq_self]
      exact (List.dedup_sublist _).eq_of_length h1
    refine ⟨?_, ?_, ?_⟩
    · intro v1 w1 v2 w2 h1 h2 hne hcontra
      subst hcontra
      have hm1 : (v1, w1) ∈ a := lookupA_mem h1
      have hm2 : (v2, w1) ∈ a := lookupA_mem h2
      have := List.inj_on_of_nodup_map hvals hm1 hm2 rfl
      exact hne (congrArg Prod.fst this)
    · intro v w hl
      have hm : (v, w) ∈ a := lookupA_mem hl
      have := (Bool.and_eq_true _ _).mp (hall (v, w) hm)
      simpa using beq_iff_eq.mp this.1
    · intro v w n nw i j hl hn hln hov
      have hm : (v, w) ∈ a := lookupA_mem hl
      have := (Bool.and_eq_true _ _).mp (hall (v, w) hm)
      have h2 := List.all_eq_true.mp this.2 n hn
      simp only at h2
      rw [hln, hov] at h2
      simpa using h2
  · rintro ⟨hdist, hlen, hov⟩
    constructor
    · have hvn : (a.map Prod.snd).Nodup := by
        rw [List.nodup_map_iff_inj_on hand]
        rintro ⟨v1, w1⟩ hm1 ⟨v2, w2⟩ hm2 hw
        simp only at hw
        subst hw
        by_cases hv : v1 = v2
        · rw [hv]
        · exact absurd rfl (hdist v1 w1 v2 w1 (lookupA_of_mem_nodup hnd hm1)
            (lookupA_of_mem_nodup hnd hm2) hv)
      have hlm : List.length a = (a.map Prod.snd).length := (List.length_map _ _).symm
      rw [hlm]
      exact dedup_length_beq.mpr hvn
    · intro p hp
      obtain ⟨pv, pw⟩ := p
      rw [Bool.and_eq_true]
      refine ⟨?_, ?_⟩
      · rw [beq_iff_eq]
        exact hlen pv pw (lookupA_of_mem_nodup hnd hp)
      · rw [List.all_eq_true]
        intro n hn
        simp only
        rcases hln : lookupA a n with _ | nw
        · rfl
        · rcases hovn : cw.overlaps pv n with _ | ⟨i, j⟩
          · rfl
          · rw [beq_iff_eq]
            exact hov pv pw n nw i j (lookupA_of_mem_nodup hnd hp) hn hln hovn

theorem ac3_subset {cw : Crossword} {arcs : Option (List (Variable × Variable))}
    {d : Domains} : ∀ v w, w ∈ (ac3 cw arcs d).2 v → w ∈ d v := by
  intro v w
  unfold ac3
  rcases arcs with _ | (_ | ⟨a, rest⟩)
  · exact ac3Loop_subset (allArcs cw) d v w
  · exact fun h => h
  · exact ac3Loop_subset (a :: rest) d v w

theorem enforce_length {cw : Crossword} {d : Domains} {v : Variable} {w : Word}
    (h : w ∈ enforce_node_consistency cw d v) : w.length = v.length := by
  unfold enforce_node_consistency at h
  rw [List.mem_filter] at h
  exact beq_iff_eq.mp h.2

theorem enforce_mem_words {cw : Crossword} {d : Domains} {v : Variable} {w : Word}
    (h : w ∈ enforce_node_consistency cw d v) : w ∈ d v := by
  unfold enforce_node_consistency at h
  exact List.mem_of_mem_filter h

theorem assignment_complete_mem {cw : Crossword} {a : Assign}
    (h : assignment_complete cw a = true) : ∀ v ∈ cw.vars, v ∈ keysA a := by
  unfold assignment_complete at h
  rw [Bool.and_eq_true] at h
  intro v hv
  have := List.all_eq_true.mp h.2 v hv
  simpa using this

theorem consistent_nil {cw : Crossword} : consistent cw [] = true := rfl

/-! Concrete instances used to witness the claims. -/

/-- A single across slot of length 3 at the origin. -/
def wA : Variable := ⟨0, 0, Direction.across, 3⟩

/-- The word CAT. -/
def catW : Word := ['C', 'A', 'T']

/-- A one-slot puzzle whose word pool is exactly CAT (the spec's
single-variable scenario). -/
def cw1 : Crossword := ⟨[wA], [catW], fun _ _ => none⟩

/-- An across slot of length 2 at the origin. -/
def vA2 : Variable := ⟨0, 0, Direction.across, 2⟩

/-- A down slot of length 3 at the origin. -/
def vB2 : Variable := ⟨0, 0, Direction.down, 3⟩

/-- A two-slot puzzle whose slots cross at their first characters but whose
word pool has no word of length 3, so arc consistency empties a domain. -/
def cw2 : Crossword :=
  ⟨[vA2, vB2], [['A', 'B']],
   fun u v =>
     if u = vA2 ∧ v = vB2 then some (0, 0)
     else if u = vB2 ∧ v = vA2 then some (0, 0)
     else none⟩

/-- A down slot of length 1 at the origin. -/
def v3 : Variable := ⟨0, 0, Direction.down, 1⟩

/-- A one-slot puzzle with an empty word pool. -/
def cw3 : Crossword := ⟨[v3], [], fun _ _ => none⟩

/-- The everywhere-empty domain store. -/
def dEmpty : Domains := fun _ => []

/-- A zero-length slot: a malformed instance per the spec. -/
def z8 : Variable := ⟨0, 0, Direction.down, 0⟩

/-- A puzzle containing a zero-length slot and a nonempty word pool. -/
def cw8 : Crossword := ⟨[z8], [['A', 'B']], fun _ _ => none⟩

/-- A domain store giving every variable the single word CAT. -/
def dCat : Domains := fun _ => [catW]

/-- C1: whenever solve() returns an assignment rather than the unsatisfiable
result None, that assignment is complete — it assigns a word to every
variable of the instance — and satisfies all constraints: every assigned
word's length equals its variable's length, all assigned words are pairwise
distinct, and every pair of assigned neighbouring variables agrees on the
characters at their shared overlap indices. -/
theorem solve_sound (cw : Crossword) (r : Assign) (h : solve cw = some r) :
    (∀ v ∈ cw.vars, ∃ w, lookupA r v = some w) ∧
    (∀ v w, lookupA r v = some w → w.length = v.length) ∧
    (∀ v1 w1 v2 w2, lookupA r v1 = some w1 → lookupA r v2 = some w2 → v1 ≠ v2 → w1 ≠ w2) ∧
    (∀ v w n nw i j, lookupA r v = some w → n ∈ neighbors cw v → lookupA r n = some nw →
      cw.overlaps v n = some (i, j) → w.getD i '?' = nw.getD j '?') := by
  unfold solve at h
  rcases hac : ac3 cw (some (allArcs cw)) (enforce_node_consistency cw (initialDomains cw)) with ⟨b, d1⟩
  rw [hac] at h
  cases b
  · simp at h
  · simp only at h
    rcases backtrack_spec cw d1 (cw.vars.length + 1) [] with ⟨hnone, hsome⟩
    rcases hsome r h with ⟨ha2, hkeys, hnodup, hcc, hdom⟩
    have hnd : (keysA r).Nodup := hnodup List.nodup_nil
    rcases hcc consistent_nil with ⟨hcomp, hcons⟩
    rcases (consistent_iff hnd).mp hcons with ⟨hdist, hlen, hovl⟩
    refine ⟨?_, hlen, hdist, hovl⟩
    intro v hv
    exact mem_keysA_lookup (assignment_complete_mem hcomp v hv)

/-- Witness for C1 at the spec's single-variable scenario. -/
theorem solve_sound_witness :
    (∀ v ∈ cw1.vars, ∃ w, lookupA [(wA, catW)] v = some w) ∧
    (∀ v w, lookupA [(wA, catW)] v = some w → w.length = v.length) ∧
    (∀ v1 w1 v2 w2, lookupA [(wA, catW)] v1 = some w1 → lookupA [(wA, catW)] v2 = some w2 →
      v1 ≠ v2 → w1 ≠ w2) ∧
    (∀ v w n nw i j, lookupA [(wA, catW)] v = some w → n ∈ neighbors cw1 v →
      lookupA [(wA, catW)] n = some nw → cw1.overlaps v n = some (i, j) →
      w.getD i '?' = nw.getD j '?') :=
  solve_sound cw1 [(wA, catW)] (by decide)

/-- C2: if the AC-3 pass invoked by solve() reports failure, solve() returns
None; in this embedding the backtracking search does not even appear in the
returned value, mirroring the early return in the Python code. -/
theorem solve_none_of_ac3_failure (cw : Crossword) (d1 : Domains)
    (h : ac3 cw (some (allArcs cw)) (enforce_node_consistency cw (initialDomains cw)) = (false, d1)) :
    solve cw = none := by
  unfold solve
  rw [h]

/-- Witness for C2 at the crossing-slots puzzle whose length-3 slot has an
empty domain after node consistency. -/
theorem solve_none_of_ac3_failure_witness : solve cw2 = none := by
  refine solve_none_of_ac3_failure cw2
    (Function.update (enforce_node_consistency cw2 (initialDomains cw2)) vA2 []) ?_
  have e0 : allArcs cw2 = [(vA2, vB2), (vB2, vA2)] := by decide
  have e1 : ac3 cw2 (some (allArcs cw2)) (enforce_node_consistency cw2 (initialDomains cw2))
      = ac3Loop cw2 [(vA2, vB2), (vB2, vA2)] (enforce_node_consistency cw2 (initialDomains cw2)) := by
    rw [e0]
    rfl
  rw [e1, ac3Loop_cons]
  rfl

/-- C9: order_domain_values returns exactly the words of the variable's
current domain (a permutation of it), ordered ascending by the
least-constraining-value score computed against the current, possibly
arc-consistency-reduced, domains of the unassigned neighbours. -/
theorem order_domain_values_spec (cw : Crossword) (d : Domains) (x : Variable) (a : Assign) :
    (order_domain_values cw d x a).Perm (d x) ∧
    List.Pairwise (fun w1 w2 => lcvScore cw d x a w1 ≤ lcvScore cw d x a w2)
      (order_domain_values cw d x a) := by
  constructor
  · exact List.perm_insertionSort _ _
  · haveI : IsTotal Word (fun w1 w2 => lcvScore cw d x a w1 ≤ lcvScore cw d x a w2) :=
      ⟨fun w1 w2 => Nat.le_total _ _⟩
    haveI : IsTrans Word (fun w1 w2 => lcvScore cw d x a w1 ≤ lcvScore cw d x a w2) :=
      ⟨fun w1 w2 w3 h1 h2 => Nat.le_trans h1 h2⟩
    exact List.sorted_insertionSort _ _

/-- C10: backtracking failure is atomic: whenever backtrack returns None,
the assignment dict it mutated in place holds exactly the entries it held at
the call, every tentative extension having been undone. -/
theorem backtrack_failure_restores (cw : Crossword) (d : Domains) (fuel : Nat) (a : Assign)
    (h : (backtrack cw d fuel a).1 = none) : (backtrack cw d fuel a).2 = a :=
  (backtrack_spec cw d fuel a).1 h

/-- Witness for C10: a failing search on the zero-length-slot puzzle leaves a
nonempty starting assignment untouched. -/
theorem backtrack_failure_restores_witness :
    (backtrack cw8 dEmpty 2 [(wA, catW)]).2 = [(wA, catW)] :=
  backtrack_failure_restores cw8 dEmpty 2 [(wA, catW)] (by decide)

/-- C3 counterexample: with an explicitly empty starting arc list, ac3
returns success immediately without checking the domains, so it can report
True while a variable's domain is empty — refuting the claim for the
explicitly-empty arc collection. -/
theorem ac3_empty_arcs_success_with_empty_domain :
    ac3 cw3 (some []) dEmpty = (true, dEmpty) ∧ v3 ∈ cw3.vars ∧ dEmpty v3 = [] :=
  ⟨rfl, by decide, rfl⟩

/-- C3 amended: for the None default or any non-empty starting arc list,
whenever ac3 returns success every variable's domain is non-empty at the
moment it returns; only the explicitly-empty arc list skips the check. -/
theorem ac3_success_nonempty (cw : Crossword)
    (arcs : Option (List (Variable × Variable))) (d d2 : Domains)
    (hne : arcs = none ∨ ∃ a rest, arcs = some (a :: rest))
    (h : ac3 cw arcs d = (true, d2)) : ∀ v ∈ cw.vars, d2 v ≠ [] := by
  rcases hne with rfl | ⟨a, rest, rfl⟩
  · exact ac3Loop_true_nonempty (allArcs cw) d d2 h
  · exact ac3Loop_true_nonempty (a :: rest) d d2 h

/-- Witness for the amended C3 with the None default on the one-slot CAT
puzzle. -/
theorem ac3_success_nonempty_witness : dCat wA ≠ [] := by
  refine ac3_success_nonempty cw1 none dCat dCat (Or.inl rfl) ?_ wA (by decide)
  show ac3Loop cw1 (allArcs cw1) dCat = (true, dCat)
  rw [show allArcs cw1 = ([] : List (Variable × Variable)) from rfl, ac3Loop_nil]
  rfl

/-- C6: immediately after enforce_node_consistency every domain word has its
variable's length; revise and ac3 only ever remove words from domains, never
add them; hence the length invariant established before propagation holds
for the domains ac3 produces, throughout solving. -/
theorem domains_only_shrink (cw : Crossword) :
    (∀ d v w, w ∈ enforce_node_consistency cw d v → w.length = v.length) ∧
    (∀ x y d v w, w ∈ (revise cw x y d).2 v → w ∈ d v) ∧
    (∀ arcs d v w, w ∈ (ac3 cw arcs d).2 v → w ∈ d v) ∧
    (∀ arcs d v w, w ∈ (ac3 cw arcs (enforce_node_consistency cw d)).2 v → w.length = v.length) :=
  ⟨fun d v w h => enforce_length h,
   fun x y d v w h => revise_subset v w h,
   fun arcs d v w h => ac3_subset v w h,
   fun arcs d v w h => enforce_length (ac3_subset v w h)⟩

/-- Witness for C6: the word CAT survives node consistency for the length-3
slot and has its length. -/
theorem domains_only_shrink_witness : catW.length = wA.length :=
  (domains_only_shrink cw1).1 (initialDomains cw1) wA catW (by decide)

/-- C7: arc consistency is idempotent: after a successful default-arc-set run
of ac3, a second default run reports success and leaves every variable's
domain unchanged (the resulting domain store is exactly the input one). The
two well-formedness hypotheses record the puzzle model's contract that the
overlap table is stored per unordered pair of distinct slots. -/
theorem ac3_idempotent (cw : Crossword) (d d1 : Domains)
    (hsym : OverlapsSymm cw) (hirr : OverlapsIrrefl cw)
    (h : ac3 cw none d = (true, d1)) : ac3 cw none d1 = (true, d1) :=
  ac3_none_fix hsym hirr h

/-- Witness for C7 on the one-slot CAT puzzle. -/
theorem ac3_idempotent_witness : ac3 cw1 none dCat = (true, dCat) := by
  have h1 : ac3 cw1 none dCat = (true, dCat) := by
    show ac3Loop cw1 (allArcs cw1) dCat = (true, dCat)
    rw [show allArcs cw1 = ([] : List (Variable × Variable)) from rfl, ac3Loop_nil]
    rfl
  exact ac3_idempotent cw1 dCat dCat (fun x y i j hov => Option.noConfusion hov)
    (fun x => rfl) h1

/-- C4: when x and y have no overlap entry, revise leaves x's domain (indeed
the whole store) unchanged and reports not-revised; otherwise, with overlap
indices (i, j), revise keeps in x's domain exactly the words whose character
at i occurs at index j of some word of y's domain (removing exactly the
unsupported ones), touches no other variable's domain, and reports revised
exactly when at least one word was removed. -/
theorem revise_spec (cw : Crossword) (x y : Variable) (d : Domains) :
    (cw.overlaps x y = none → revise cw x y d = (false, d)) ∧
    (∀ i j, cw.overlaps x y = some (i, j) →
      (∀ v, v ≠ x → (revise cw x y d).2 v = d v) ∧
      (∀ w, w ∈ (revise cw x y d).2 x ↔
        w ∈ d x ∧ ∃ nw ∈ d y, w.getD i '?' = nw.getD j '?') ∧
      ((revise cw x y d).1 = true ↔
        ∃ w ∈ d x, ∀ nw ∈ d y, w.getD i '?' ≠ nw.getD j '?')) := by
  constructor
  · intro h
    unfold revise
    rw [h]
  · intro i j hov
    by_cases hemp : ((d x).filter
        (fun w => ! ((d y).map (fun w => w.getD j '?')).contains (w.getD i '?'))).isEmpty = true
    · have hr : revise cw x y d = (false, d) := by
        unfold revise
        rw [hov]
        simp only
        rw [if_pos hemp]
      rw [hr]
      rw [List.isEmpty_iff, List.filter_eq_nil_iff] at hemp
      refine ⟨fun v hv => rfl, ?_, ?_⟩
      · intro w
        simp only
        constructor
        · intro hw
          refine ⟨hw, ?_⟩
          have := hemp w hw
          simp [List.mem_map] at this
          rcases this with ⟨nw, hnw, heq⟩
          exact ⟨nw, hnw, by simpa using heq.symm⟩
        · exact fun hw => hw.1
      · simp only [Bool.false_eq_true, false_iff]
        rintro ⟨w, hw, hnosupp⟩
        have := hemp w hw
        simp [List.mem_map] at this
        rcases this with ⟨nw, hnw, heq⟩
        exact hnosupp nw hnw (by simpa using heq.symm)
    · have hr : revise cw x y d = (true, Function.update d x ((d x).filter
          (fun w => ((d y).map (fun w => w.getD j '?')).contains (w.getD i '?')))) := by
        unfold revise
        rw [hov]
        simp only
        rw [if_neg hemp]
      rw [hr]
      refine ⟨?_, ?_, ?_⟩
      · intro v hv
        simp only
        rw [Function.update_noteq hv]
      · intro w
        simp only [Function.update_same]
        rw [List.mem_filter]
        constructor
        · rintro ⟨hw, hc⟩
          refine ⟨hw, ?_⟩
          simp [List.mem_map] at hc
          rcases hc with ⟨nw, hnw, heq⟩
          exact ⟨nw, hnw, by simpa using heq.symm⟩
        · rintro ⟨hw, nw, hnw, heq⟩
          refine ⟨hw, ?_⟩
          simp [List.mem_map]
          exact ⟨nw, hnw, by simpa using heq.symm⟩
      · simp only [true_iff]
        rw [List.isEmpty_iff] at hemp
        rcases List.exists_mem_of_ne_nil _ hemp with ⟨w, hwmem⟩
        rw [List.mem_filter] at hwmem
        refine ⟨w, hwmem.1, ?_⟩
        intro nw hnw heq
        have h2 := hwmem.2
        simp [List.mem_map] at h2
        exact h2 nw hnw (by simpa using heq.symm)

/-- Witness for C4: on the crossing-slots puzzle the arc from the length-2
slot to the empty-domain length-3 slot is revised. -/
theorem revise_spec_witness :
    (revise cw2 vA2 vB2 (enforce_node_consistency cw2 (initialDomains cw2))).1 = true := by
  have h := (revise_spec cw2 vA2 vB2 (enforce_node_consistency cw2 (initialDomains cw2))).2
    0 0 (by decide)
  refine h.2.2.mpr ⟨['A', 'B'], by decide, ?_⟩
  intro nw hnw
  have hnil : enforce_node_consistency cw2 (initialDomains cw2) vB2 = [] := by decide
  rw [hnil] at hnw
  cases hnw

/-- C5: consistent(assignment) returns True exactly when, over the assigned
variables only, all assigned words are pairwise distinct, every assigned
word's length equals its variable's length, and every assigned variable
agrees with each of its assigned neighbours at the shared overlap indices;
unassigned variables impose no constraint. -/
theorem consistent_characterisation (cw : Crossword) (a : Assign) (hnd : (keysA a).Nodup) :
    consistent cw a = true ↔
      ((∀ v1 w1 v2 w2, lookupA a v1 = some w1 → lookupA a v2 = some w2 → v1 ≠ v2 → w1 ≠ w2) ∧
       (∀ v w, lookupA a v = some w → w.length = v.length) ∧
       (∀ v w n nw i j, lookupA a v = some w → n ∈ neighbors cw v → lookupA a n = some nw →
         cw.overlaps v n = some (i, j) → w.getD i '?' = nw.getD j '?')) :=
  consistent_iff hnd

/-- Witness for C5 at a concrete singleton assignment. -/
theorem consistent_characterisation_witness :
    consistent cw1 [(wA, catW)] = true ↔
      ((∀ v1 w1 v2 w2, lookupA [(wA, catW)] v1 = some w1 → lookupA [(wA, catW)] v2 = some w2 →
         v1 ≠ v2 → w1 ≠ w2) ∧
       (∀ v w, lookupA [(wA, catW)] v = some w → w.length = v.length) ∧
       (∀ v w n nw i j, lookupA [(wA, catW)] v = some w → n ∈ neighbors cw1 v →
         lookupA [(wA, catW)] n = some nw → cw1.overlaps v n = some (i, j) →
         w.getD i '?' = nw.getD j '?')) :=
  consistent_characterisation cw1 [(wA, catW)] (by decide)

/-- C8 counterexample: a malformed instance with a zero-length variable is
not rejected before solving; solve() runs and returns the ordinary
unsatisfiable result None, indistinguishable from normal unsatisfiability —
refuting the claimed fail-fast descriptive error. -/
theorem solve_no_fail_fast_on_zero_length :
    z8.length = 0 ∧ z8 ∈ cw8.vars ∧ solve cw8 = none :=
  ⟨rfl, by decide, by decide⟩

/-- C8 amended: solve() performs no malformed-instance validation; on an
instance with a zero-length variable (and no zero-length candidate word) it
returns the normal unsatisfiable result None rather than failing fast with a
distinguishable error. -/
theorem malformed_returns_none (cw : Crossword)
    (hzero : ∃ v ∈ cw.vars, v.length = 0)
    (hwords : ∀ w ∈ cw.words, w ≠ []) : solve cw = none := by
  rcases hzero with ⟨v, hv, hv0⟩
  have hd0 : enforce_node_consistency cw (initialDomains cw) v = [] := by
    rw [List.eq_nil_iff_forall_not_mem]
    intro w hw
    have h1 := enforce_length hw
    have h2 : w ∈ cw.words := enforce_mem_words hw
    rw [hv0] at h1
    exact hwords w h2 (List.length_eq_zero.mp h1)
  unfold solve
  rcases hac : ac3 cw (some (allArcs cw)) (enforce_node_consistency cw (initialDomains cw)) with ⟨b, d1⟩
  cases b
  · simp
  · simp only
    have hd1 : d1 v = [] := by
      rw [List.eq_nil_iff_forall_not_mem]
      intro w hw
      have hmem : w ∈ (ac3 cw (some (allArcs cw)) (enforce_node_consistency cw (initialDomains cw))).2 v := by
        rw [hac]
        exact hw
      have := ac3_subset v w hmem
      rw [hd0] at this
      cases this
    rcases hres : (backtrack cw d1 (cw.vars.length + 1) []).1 with _ | r
    · rfl
    · exfalso
      rcases backtrack_spec cw d1 (cw.vars.length + 1) [] with ⟨hnone, hsome⟩
      rcases hsome r hres with ⟨ha2, hkeys, hnodup, hcc, hdom⟩
      rcases hcc consistent_nil with ⟨hcomp, hcons⟩
      have hvk : v ∈ keysA r := assignment_complete_mem hcomp v hv
      rcases mem_keysA_lookup hvk with ⟨w, hlw⟩
      rcases hdom v w hlw with hl | hr2
      · exact Option.noConfusion hl
      · rw [hd1] at hr2
        cases hr2

/-- Witness for the amended C8 at the zero-length-slot puzzle. -/
theorem malformed_returns_none_witness : solve cw8 = none :=
  malformed_returns_none cw8 ⟨z8, by decide, rfl⟩ (by decide)

end CrosswordGen
